import Mathlib

/-!
Shallow embedding of the tag-map fragment (src/tag/map.go) of
opencensus-go: a key/value tag map with copy-on-derive semantics,
four mutator kinds (insert, update, upsert, delete) and a
deterministic string rendering.

External collaborators not present under src/ are modelled from the
spec: the value-validity predicate is an abstract parameter
`cv : String → Bool`, the context is the `Option Map` result of
`FromContext`, and the single error kind is `TagError.invalidValue`.
-/

/-- A tag key; it is comparable and carries a display name
(Go: `type Key struct; k.Name()` returns `k.name`). -/
structure Key where
  name : String
deriving DecidableEq, Repr

/-- A tag map (Go: `type Map struct; m map[Key]string`), embedded as an
association list of key/value entries.  Maps built by the operations
below keep at most one entry per key (`Map.wf`). -/
structure Map where
  m : List (Key × String)
deriving DecidableEq, Repr

/-- Lookup of a key in an association list. -/
def lookupList : List (Key × String) → Key → Option String
  | [], _ => none
  | kv :: rest, k => if kv.1 = k then some kv.2 else lookupList rest k

/-- Go: `func (m *Map) Value(k Key) (string, bool)` — the value for the
key if one exists; `(v, true)` is `some v`, `(_, false)` is `none`. -/
def Map.Value (mp : Map) (k : Key) : Option String :=
  lookupList mp.m k

/-- Well-formedness: at most one entry per key, as a Go map guarantees. -/
def Map.wf (mp : Map) : Prop :=
  (mp.m.map Prod.fst).Nodup

instance (mp : Map) : Decidable mp.wf := by
  unfold Map.wf; infer_instance

/-- Go map assignment `m.m[k] = v`: overwrite in place if the key is
present, otherwise add a new entry. -/
def Map.set (mp : Map) (k : Key) (v : String) : Map :=
  if (mp.Value k).isSome then
    ⟨mp.m.map (fun kv => if kv.1 = k then (k, v) else kv)⟩
  else
    ⟨mp.m ++ [(k, v)]⟩

/-- Go: `func (m *Map) insert(k Key, v string)` — sets `k → v` only when
`k` is not already present; no-op otherwise. -/
def Map.insert (mp : Map) (k : Key) (v : String) : Map :=
  if (mp.Value k).isSome then mp else mp.set k v

/-- Go: `func (m *Map) update(k Key, v string)` — sets `k → v` only when
`k` is already present; no-op otherwise. -/
def Map.update (mp : Map) (k : Key) (v : String) : Map :=
  if (mp.Value k).isSome then mp.set k v else mp

/-- Go: `func (m *Map) upsert(k Key, v string)` — sets `k → v`
unconditionally. -/
def Map.upsert (mp : Map) (k : Key) (v : String) : Map :=
  mp.set k v

/-- Go: `func (m *Map) delete(k Key)` — removes `k` if present. -/
def Map.delete (mp : Map) (k : Key) : Map :=
  ⟨mp.m.filter (fun kv => kv.1 != k)⟩

/-- The keys of the map, in entry order (Go: `for k := range m.m`). -/
def Map.keys (mp : Map) : List Key :=
  mp.m.map Prod.fst

/-- The comparison used by `sort.Slice` in Go `String()`:
keys ordered by display name. -/
def keyLE (a b : Key) : Prop :=
  a.name ≤ b.name

instance : DecidableRel keyLE := by
  unfold keyLE; infer_instance

instance : IsTotal Key keyLE :=
  ⟨fun a b => le_total a.name b.name⟩

instance : IsTrans Key keyLE :=
  ⟨fun _ _ _ hab hbc => le_trans hab hbc⟩

instance : IsAntisymm Key keyLE := by
  refine ⟨fun a b hab hba => ?_⟩
  cases a; cases b
  simp only [Key.mk.injEq]
  exact le_antisymm hab hba

/-- The rendering of one entry (Go: `fmt.Sprintf("{%v %v}", k.name, m.m[k])`). -/
def renderEntry (mp : Map) (k : Key) : String :=
  "\x7b" ++ k.name ++ " " ++ (mp.Value k).getD "" ++ "\x7d"

/-- Go: `func (m *Map) String() string` — collects the keys, sorts them
ascending by display name, and renders
`"{ {name1 value1}{name2 value2}... }"`. -/
def Map.toString (mp : Map) : String :=
  "\x7b " ++ String.join ((List.insertionSort keyLE mp.keys).map (renderEntry mp)) ++ " \x7d"

/-- Modelled from the spec: the single error kind `InvalidValue`
(`errInvalid` lives outside src/). -/
inductive TagError where
  | invalidValue
deriving DecidableEq, Repr

/-- The four mutator constructors of Go `tag.Insert`, `tag.Update`,
`tag.Upsert`, `tag.Delete`, as a tagged variant. -/
inductive Mutator where
  | insert (k : Key) (v : String)
  | update (k : Key) (v : String)
  | upsert (k : Key) (v : String)
  | delete (k : Key)
deriving DecidableEq, Repr

/-- Whether the mutator carries a value failing the validity predicate
`cv` (modelled from the spec: `checkValue` lives outside src/ and is the
black-box predicate `IsValidValue`).  `Delete` carries no value. -/
def Mutator.failsCheck (cv : String → Bool) : Mutator → Bool
  | .insert _ v => !(cv v)
  | .update _ v => !(cv v)
  | .upsert _ v => !(cv v)
  | .delete _ => false

/-- Go: `Mutate(t *Map) (*Map, error)` of the closure each constructor
builds — validate the value, then perform the primitive operation. -/
def Mutator.Mutate (cv : String → Bool) : Mutator → Map → Except TagError Map
  | .insert k v, mp =>
    if cv v then .ok (mp.insert k v) else .error .invalidValue
  | .update k v, mp =>
    if cv v then .ok (mp.update k v) else .error .invalidValue
  | .upsert k v, mp =>
    if cv v then .ok (mp.upsert k v) else .error .invalidValue
  | .delete k, mp => .ok (mp.delete k)

/-- The mutator loop of Go `NewMap`: apply each mutator in order,
returning the first error (and no map) if one fails. -/
def applyMutators (cv : String → Bool) : List Mutator → Map → Except TagError Map
  | [], mp => .ok mp
  | mu :: rest, mp =>
    match mu.Mutate cv mp with
    | .error e => .error e
    | .ok mp' => applyMutators cv rest mp'

/-- The ancestor-copy loop of Go `NewMap`: copy every entry of the
ancestor into a fresh map with insert-if-absent semantics. -/
def copyEntries (o : Map) : Map :=
  o.m.foldl (fun acc kv => acc.insert kv.1 kv.2) (Map.mk [])

/-- The starting map of a derivation.  Modelled from the spec:
`FromContext(ctx)` (outside src/) yields the map in scope or absent,
so the context is embedded as that `Option Map`. -/
def initialMap : Option Map → Map
  | none => Map.mk []
  | some o => copyEntries o

/-- Go: `func NewMap(ctx context.Context, mutator ...Mutator) (*Map, error)`
— start from an empty map, copy the ancestor found in the context (if
any) via `insert`, then apply the mutators in order, aborting on the
first error. -/
def NewMap (cv : String → Bool) (ctx : Option Map) (muts : List Mutator) :
    Except TagError Map :=
  applyMutators cv muts (initialMap ctx)

/-- State-passing form of `NewMap` that threads the ancestor map
explicitly: the first component is the ancestor's state when the
derivation returns.  The copy loop only reads the ancestor, so the
fold leaves the first component untouched, mirroring that the Go code
never writes through `orig`. -/
def NewMapS (cv : String → Bool) (ctx : Option Map) (muts : List Mutator) :
    Option Map × Except TagError Map :=
  match ctx with
  | none => (none, applyMutators cv muts (Map.mk []))
  | some o =>
    let p := o.m.foldl (fun q kv => (q.1, q.2.insert kv.1 kv.2)) (o, Map.mk [])
    (some p.1, applyMutators cv muts p.2)

/-! ### Lookup lemmas -/

lemma lookup_append_of_none (l1 l2 : List (Key × String)) (k : Key)
    (h : lookupList l1 k = none) :
    lookupList (l1 ++ l2) k = lookupList l2 k := by
  induction l1 with
  | nil => rfl
  | cons kv rest ih =>
    rw [List.cons_append]
    simp only [lookupList] at h ⊢
    by_cases hk : kv.1 = k
    · simp [hk] at h
    · rw [if_neg hk] at h ⊢
      exact ih h

lemma lookup_append_of_some (l1 l2 : List (Key × String)) (k : Key) (v : String)
    (h : lookupList l1 k = some v) :
    lookupList (l1 ++ l2) k = some v := by
  induction l1 with
  | nil => simp [lookupList] at h
  | cons kv rest ih =>
    rw [List.cons_append]
    simp only [lookupList] at h ⊢
    by_cases hk : kv.1 = k
    · rw [if_pos hk] at h ⊢; exact h
    · rw [if_neg hk] at h ⊢
      exact ih h

lemma lookup_none_iff (l : List (Key × String)) (k : Key) :
    lookupList l k = none ↔ ∀ kv ∈ l, kv.1 ≠ k := by
  induction l with
  | nil => simp [lookupList]
  | cons kv rest ih =>
    simp only [lookupList, List.mem_cons]
    by_cases hk : kv.1 = k
    · simp [hk]
    · simp only [if_neg hk, ih]
      constructor
      · intro h kv2 hm
        rcases hm with hm | hm
        · rw [hm]; exact hk
        · exact h kv2 hm
      · intro h kv2 hm
        exact h kv2 (Or.inr hm)

lemma lookup_replace_some (l : List (Key × String)) (k : Key) (v : String)
    (h : (lookupList l k).isSome) :
    lookupList (l.map (fun kv => if kv.1 = k then (k, v) else kv)) k = some v := by
  induction l with
  | nil => simp [lookupList] at h
  | cons kv rest ih =>
    by_cases hk : kv.1 = k
    · simp [lookupList, hk]
    · simp only [List.map_cons, if_neg hk, lookupList] at h ⊢
      exact ih h

lemma lookup_replace_other (l : List (Key × String)) (k : Key) (v : String) (k' : Key)
    (hne : k' ≠ k) :
    lookupList (l.map (fun kv => if kv.1 = k then (k, v) else kv)) k' = lookupList l k' := by
  induction l with
  | nil => rfl
  | cons kv rest ih =>
    by_cases hk : kv.1 = k
    · have h1 : ¬ (k = k') := fun hcontra => hne hcontra.symm
      have h2 : ¬ (kv.1 = k') := by rw [hk]; exact h1
      simp only [List.map_cons, if_pos hk, lookupList]
      rw [if_neg h1, if_neg h2]
      exact ih
    · simp only [List.map_cons, if_neg hk, lookupList]
      by_cases hk' : kv.1 = k'
      · rw [if_pos hk', if_pos hk']
      · rw [if_neg hk', if_neg hk']
        exact ih

lemma set_value_self (mp : Map) (k : Key) (v : String) :
    (mp.set k v).Value k = some v := by
  unfold Map.set
  by_cases h : (mp.Value k).isSome
  · rw [if_pos h]
    exact lookup_replace_some mp.m k v h
  · rw [if_neg h]
    have hn : lookupList mp.m k = none := Option.not_isSome_iff_eq_none.mp h
    show lookupList (mp.m ++ [(k, v)]) k = some v
    rw [lookup_append_of_none _ _ _ hn]
    simp [lookupList]

lemma set_value_other (mp : Map) (k : Key) (v : String) (k' : Key) (hne : k' ≠ k) :
    (mp.set k v).Value k' = mp.Value k' := by
  unfold Map.set
  by_cases h : (mp.Value k).isSome
  · rw [if_pos h]
    exact lookup_replace_other mp.m k v k' hne
  · rw [if_neg h]
    show lookupList (mp.m ++ [(k, v)]) k' = lookupList mp.m k'
    cases hl : lookupList mp.m k' with
    | some w => exact lookup_append_of_some _ _ _ _ hl
    | none =>
      rw [lookup_append_of_none _ _ _ hl]
      have hkk : ¬ (k = k') := fun hh => hne hh.symm
      simp [lookupList, hkk]

lemma delete_value_self (mp : Map) (k : Key) :
    (mp.delete k).Value k = none := by
  unfold Map.delete Map.Value
  rw [lookup_none_iff]
  intro kv hmem
  have hf := (List.mem_filter.mp hmem).2
  simpa using hf

/-! ### Ancestor-copy lemmas -/

lemma foldl_insert_app :
    ∀ (l : List (Key × String)) (acc : Map), (l.map Prod.fst).Nodup →
      (∀ kv ∈ l, acc.Value kv.1 = none) →
      List.foldl (fun a kv => a.insert kv.1 kv.2) acc l = ⟨acc.m ++ l⟩ := by
  intro l
  induction l with
  | nil =>
    intro acc _ _
    cases acc
    simp
  | cons kv rest ih =>
    intro acc hn hd
    have h0 : acc.Value kv.1 = none := hd kv (List.mem_cons_self _ _)
    have h0s : (acc.Value kv.1).isSome = false := by rw [h0]; rfl
    have hins : acc.insert kv.1 kv.2 = ⟨acc.m ++ [kv]⟩ := by
      unfold Map.insert Map.set
      rw [if_neg (by rw [h0s]; simp), if_neg (by rw [h0s]; simp)]
    rw [List.foldl_cons, hins]
    simp only [List.map_cons, List.nodup_cons] at hn
    have hd' : ∀ kv2 ∈ rest, (Map.mk (acc.m ++ [kv])).Value kv2.1 = none := by
      intro kv2 hmem
      have hno : lookupList acc.m kv2.1 = none := hd kv2 (List.mem_cons_of_mem _ hmem)
      show lookupList (acc.m ++ [kv]) kv2.1 = none
      rw [lookup_append_of_none _ _ _ hno]
      have hne : ¬ (kv.1 = kv2.1) := by
        intro he
        exact hn.1 (by rw [he]; exact List.mem_map_of_mem Prod.fst hmem)
      simp [lookupList, hne]
    rw [ih ⟨acc.m ++ [kv]⟩ hn.2 hd']
    simp

lemma copyEntries_eq (o : Map) (h : o.wf) : copyEntries o = o := by
  have hd : ∀ kv ∈ o.m, (Map.mk []).Value kv.1 = none := by
    intro kv _
    rfl
  unfold copyEntries
  rw [foldl_insert_app o.m (Map.mk []) h hd]
  cases o
  simp

/-! ### Permutation lemmas for lookup -/

lemma mem_of_lookup_some :
    ∀ (l : List (Key × String)) (k : Key) (v : String),
      lookupList l k = some v → (k, v) ∈ l := by
  intro l
  induction l with
  | nil => intro k v h; simp [lookupList] at h
  | cons kv rest ih =>
    intro k v h
    obtain ⟨a, b⟩ := kv
    by_cases hk : a = k
    · subst hk
      simp only [lookupList, if_pos rfl] at h
      have hv : b = v := by injection h
      subst hv
      exact List.mem_cons_self _ _
    · simp only [lookupList] at h
      rw [if_neg hk] at h
      exact List.mem_cons_of_mem _ (ih k v h)

lemma lookup_of_mem_nodup :
    ∀ (l : List (Key × String)), (l.map Prod.fst).Nodup →
      ∀ (k : Key) (v : String), (k, v) ∈ l → lookupList l k = some v := by
  intro l
  induction l with
  | nil => intro _ k v h; simp at h
  | cons kv rest ih =>
    intro hn k v hmem
    obtain ⟨a, b⟩ := kv
    simp only [List.map_cons, List.nodup_cons] at hn
    rcases List.mem_cons.mp hmem with heq | htail
    · injection heq.symm with hk hv
      subst hk
      subst hv
      simp [lookupList]
    · have hkin : k ∈ rest.map Prod.fst := List.mem_map_of_mem Prod.fst htail
      have hne : ¬ (a = k) := by
        intro he
        exact hn.1 (by rw [he]; exact hkin)
      simp only [lookupList]
      rw [if_neg hne]
      exact ih hn.2 k v htail

lemma lookup_perm_eq (l1 l2 : List (Key × String)) (hp : l1.Perm l2)
    (hn : (l1.map Prod.fst).Nodup) (k : Key) :
    lookupList l1 k = lookupList l2 k := by
  have hn2 : (l2.map Prod.fst).Nodup := ((hp.map Prod.fst).nodup_iff).mp hn
  cases h1 : lookupList l1 k with
  | some v =>
    have hm : (k, v) ∈ l2 := hp.mem_iff.mp (mem_of_lookup_some l1 k v h1)
    exact (lookup_of_mem_nodup l2 hn2 k v hm).symm
  | none =>
    have h2 : lookupList l2 k = none := by
      rw [lookup_none_iff]
      intro kv hmem
      exact (lookup_none_iff l1 k).mp h1 kv (hp.mem_iff.mpr hmem)
    rw [h2]

/-! ### Mutator lemmas -/

lemma mutate_ok_of_valid (cv : String → Bool) (mu : Mutator) (mp : Map)
    (h : mu.failsCheck cv = false) :
    ∃ mp', mu.Mutate cv mp = .ok mp' := by
  cases mu with
  | insert k v =>
    simp only [Mutator.failsCheck, Bool.not_eq_false'] at h
    exact ⟨mp.insert k v, by simp [Mutator.Mutate, h]⟩
  | update k v =>
    simp only [Mutator.failsCheck, Bool.not_eq_false'] at h
    exact ⟨mp.update k v, by simp [Mutator.Mutate, h]⟩
  | upsert k v =>
    simp only [Mutator.failsCheck, Bool.not_eq_false'] at h
    exact ⟨mp.upsert k v, by simp [Mutator.Mutate, h]⟩
  | delete k => exact ⟨mp.delete k, rfl⟩

lemma mutate_err_of_invalid (cv : String → Bool) (mu : Mutator) (mp : Map)
    (h : mu.failsCheck cv = true) :
    mu.Mutate cv mp = .error .invalidValue := by
  cases mu with
  | insert k v =>
    simp only [Mutator.failsCheck, Bool.not_eq_true'] at h
    simp [Mutator.Mutate, h]
  | update k v =>
    simp only [Mutator.failsCheck, Bool.not_eq_true'] at h
    simp [Mutator.Mutate, h]
  | upsert k v =>
    simp only [Mutator.failsCheck, Bool.not_eq_true'] at h
    simp [Mutator.Mutate, h]
  | delete k => simp [Mutator.failsCheck] at h

lemma applyMutators_short_circuit (cv : String → Bool) (bad : Mutator)
    (post : List Mutator) :
    ∀ (pre : List Mutator) (mp : Map),
      (∀ mu ∈ pre, mu.failsCheck cv = false) → bad.failsCheck cv = true →
      applyMutators cv (pre ++ bad :: post) mp = .error .invalidValue := by
  intro pre
  induction pre with
  | nil =>
    intro mp _ hbad
    simp only [List.nil_append, applyMutators]
    rw [mutate_err_of_invalid cv bad mp hbad]
  | cons mu pre ih =>
    intro mp hpre hbad
    obtain ⟨mp', hmp'⟩ := mutate_ok_of_valid cv mu mp (hpre mu (List.mem_cons_self _ _))
    rw [List.cons_append]
    simp only [applyMutators]
    rw [hmp']
    exact ih mp' (fun mu2 hm => hpre mu2 (List.mem_cons_of_mem _ hm)) hbad

lemma foldl_pair_fst :
    ∀ (l : List (Key × String)) (a b : Map),
      List.foldl (fun q kv => (q.1, Map.insert q.2 kv.1 kv.2)) (a, b) l =
        (a, List.foldl (fun acc kv => acc.insert kv.1 kv.2) b l) := by
  intro l
  induction l with
  | nil => intro a b; rfl
  | cons kv rest ih =>
    intro a b
    simp only [List.foldl_cons]
    exact ih a (b.insert kv.1 kv.2)

/-! ### Claim theorems -/

/-- A concrete validity predicate for witnesses: a value is valid iff it
is nonempty (the spec's example treats the empty string as invalid). -/
def cvSample : String → Bool := fun s => !s.isEmpty

/-- C1: for every ancestor map and mutator sequence, if some mutator
carries a value failing the validity predicate, the derivation stops at
the first such mutator and returns the `InvalidValue` error and no map:
the `Except.error` result carries no map, so the effects of the earlier
successful mutators are not observable in any returned value. -/
theorem newMap_invalid_short_circuit (cv : String → Bool) (ctx : Option Map)
    (pre : List Mutator) (bad : Mutator) (post : List Mutator)
    (hpre : ∀ mu ∈ pre, mu.failsCheck cv = false)
    (hbad : bad.failsCheck cv = true) :
    NewMap cv ctx (pre ++ bad :: post) = .error .invalidValue :=
  applyMutators_short_circuit cv bad post pre (initialMap ctx) hpre hbad

/-- Witness for C1 at the spec's example: `[Upsert(k1, "valid"),
Upsert(k2, "")]` with the empty string invalid. -/
theorem newMap_invalid_short_circuit_witness :
    (∀ mu ∈ [Mutator.upsert (Key.mk "k1") "valid"], mu.failsCheck cvSample = false)
    ∧ (Mutator.upsert (Key.mk "k2") "").failsCheck cvSample = true
    ∧ NewMap cvSample none
        ([Mutator.upsert (Key.mk "k1") "valid"] ++ (Mutator.upsert (Key.mk "k2") "") :: [])
      = .error .invalidValue :=
  ⟨by decide, by decide,
    newMap_invalid_short_circuit cvSample none
      [Mutator.upsert (Key.mk "k1") "valid"] (Mutator.upsert (Key.mk "k2") "") []
      (by decide) (by decide)⟩

/-- C2: `NewMap` derives its result by starting from the empty map,
copying every entry of the ancestor (when one is in scope) with
insert-if-absent semantics — preserving every lookup, for a well-formed
ancestor — and then applying the mutators in order; with no ancestor in
scope, derivation starts from the empty map. -/
theorem newMap_copy_then_apply (cv : String → Bool) (muts : List Mutator)
    (o : Map) (h : o.wf) :
    NewMap cv none muts = applyMutators cv muts (Map.mk [])
    ∧ NewMap cv (some o) muts = applyMutators cv muts (copyEntries o)
    ∧ ∀ k, (copyEntries o).Value k = o.Value k := by
  refine ⟨rfl, rfl, fun k => ?_⟩
  rw [copyEntries_eq o h]

/-- Witness for C2 at a one-entry ancestor. -/
theorem newMap_copy_then_apply_witness :
    (Map.mk [(Key.mk "a", "1")]).wf
    ∧ (NewMap cvSample none [] = applyMutators cvSample [] (Map.mk [])
      ∧ NewMap cvSample (some (Map.mk [(Key.mk "a", "1")])) []
          = applyMutators cvSample [] (copyEntries (Map.mk [(Key.mk "a", "1")]))
      ∧ ∀ k, (copyEntries (Map.mk [(Key.mk "a", "1")])).Value k
          = (Map.mk [(Key.mk "a", "1")]).Value k) :=
  ⟨by decide, newMap_copy_then_apply cvSample [] (Map.mk [(Key.mk "a", "1")]) (by decide)⟩

/-- C3: derivation leaves the ancestor unchanged.  In the state-passing
form `NewMapS` the ancestor component comes back exactly as it went in,
so every lookup on the ancestor is the same after derivation as before,
whether the derivation succeeds or fails; the result component agrees
with `NewMap`. -/
theorem newMapS_ancestor_unchanged (cv : String → Bool) (ctx : Option Map)
    (muts : List Mutator) :
    (NewMapS cv ctx muts).1 = ctx
    ∧ (∀ k, ((NewMapS cv ctx muts).1).map (fun o => o.Value k)
        = ctx.map (fun o => o.Value k))
    ∧ (NewMapS cv ctx muts).2 = NewMap cv ctx muts := by
  cases ctx with
  | none => exact ⟨rfl, fun k => rfl, rfl⟩
  | some o =>
    have he : NewMapS cv (some o) muts
        = (some o, applyMutators cv muts (copyEntries o)) := by
      show (some (List.foldl (fun q kv => (q.1, q.2.insert kv.1 kv.2)) (o, Map.mk []) o.m).1,
          applyMutators cv muts
            (List.foldl (fun q kv => (q.1, q.2.insert kv.1 kv.2)) (o, Map.mk []) o.m).2)
        = (some o, applyMutators cv muts (copyEntries o))
      rw [foldl_pair_fst o.m o (Map.mk [])]
      rfl
    exact ⟨by rw [he], fun k => by rw [he], by rw [he]; rfl⟩

/-- C4: an `Insert` mutator on a key already present with a valid new
value succeeds and never overwrites — the map comes back unchanged and
the key keeps its old value. -/
theorem insert_mutator_no_overwrite (cv : String → Bool) (mp : Map) (k : Key)
    (v0 v1 : String) (h0 : mp.Value k = some v0) (hv : cv v1 = true) :
    Mutator.Mutate cv (.insert k v1) mp = .ok mp ∧ mp.Value k = some v0 := by
  have hs : (mp.Value k).isSome = true := by rw [h0]; rfl
  refine ⟨?_, h0⟩
  simp [Mutator.Mutate, Map.insert, hv, hs]

/-- Witness for C4: inserting over the existing entry `k → "v0"`. -/
theorem insert_mutator_no_overwrite_witness :
    (Map.mk [(Key.mk "k", "v0")]).Value (Key.mk "k") = some "v0"
    ∧ cvSample "v1" = true
    ∧ (Mutator.Mutate cvSample (Mutator.insert (Key.mk "k") "v1")
          (Map.mk [(Key.mk "k", "v0")]) = .ok (Map.mk [(Key.mk "k", "v0")])
      ∧ (Map.mk [(Key.mk "k", "v0")]).Value (Key.mk "k") = some "v0") :=
  ⟨by decide, by decide,
    insert_mutator_no_overwrite cvSample (Map.mk [(Key.mk "k", "v0")]) (Key.mk "k")
      "v0" "v1" (by decide) (by decide)⟩

/-- C5: an `Update` mutator on an absent key with a valid value succeeds
and never inserts — the map comes back unchanged and the key stays
absent. -/
theorem update_mutator_no_insert (cv : String → Bool) (mp : Map) (k : Key)
    (v : String) (h0 : mp.Value k = none) (hv : cv v = true) :
    Mutator.Mutate cv (.update k v) mp = .ok mp ∧ mp.Value k = none := by
  have hs : (mp.Value k).isSome = false := by rw [h0]; rfl
  refine ⟨?_, h0⟩
  simp [Mutator.Mutate, Map.update, hv, hs]

/-- Witness for C5: updating a key absent from a one-entry map. -/
theorem update_mutator_no_insert_witness :
    (Map.mk [(Key.mk "a", "1")]).Value (Key.mk "b") = none
    ∧ cvSample "v" = true
    ∧ (Mutator.Mutate cvSample (Mutator.update (Key.mk "b") "v")
          (Map.mk [(Key.mk "a", "1")]) = .ok (Map.mk [(Key.mk "a", "1")])
      ∧ (Map.mk [(Key.mk "a", "1")]).Value (Key.mk "b") = none) :=
  ⟨by decide, by decide,
    update_mutator_no_insert cvSample (Map.mk [(Key.mk "a", "1")]) (Key.mk "b") "v"
      (by decide) (by decide)⟩

/-- C6: an `Upsert` mutator with a valid value succeeds and afterwards
the lookup of the key returns that value, whether or not the key was
present before. -/
theorem upsert_mutator_sets_value (cv : String → Bool) (mp : Map) (k : Key)
    (v : String) (hv : cv v = true) :
    Mutator.Mutate cv (.upsert k v) mp = .ok (mp.upsert k v)
    ∧ (mp.upsert k v).Value k = some v := by
  refine ⟨?_, set_value_self mp k v⟩
  simp [Mutator.Mutate, hv]

/-- Witness for C6: upserting over an existing entry. -/
theorem upsert_mutator_sets_value_witness :
    cvSample "new" = true
    ∧ (Mutator.Mutate cvSample (Mutator.upsert (Key.mk "a") "new")
          (Map.mk [(Key.mk "a", "old")])
        = .ok ((Map.mk [(Key.mk "a", "old")]).upsert (Key.mk "a") "new")
      ∧ ((Map.mk [(Key.mk "a", "old")]).upsert (Key.mk "a") "new").Value (Key.mk "a")
        = some "new") :=
  ⟨by decide,
    upsert_mutator_sets_value cvSample (Map.mk [(Key.mk "a", "old")]) (Key.mk "a")
      "new" (by decide)⟩

/-- C7: applying the same `Upsert(k, v)` mutator twice in succession
yields the same map as applying it once — the same lookup result for
every key. -/
theorem upsert_mutator_idempotent (cv : String → Bool) (mp : Map) (k : Key)
    (v : String) (hv : cv v = true) :
    applyMutators cv [.upsert k v, .upsert k v] mp = .ok ((mp.upsert k v).upsert k v)
    ∧ applyMutators cv [.upsert k v] mp = .ok (mp.upsert k v)
    ∧ ∀ k', ((mp.upsert k v).upsert k v).Value k' = (mp.upsert k v).Value k' := by
  refine ⟨?_, ?_, fun k' => ?_⟩
  · simp [applyMutators, Mutator.Mutate, hv]
  · simp [applyMutators, Mutator.Mutate, hv]
  · by_cases hk : k' = k
    · subst hk
      simp only [Map.upsert]
      rw [set_value_self, set_value_self]
    · exact set_value_other (mp.upsert k v) k v k' hk

/-- Witness for C7 at a concrete map and key. -/
theorem upsert_mutator_idempotent_witness :
    cvSample "v" = true
    ∧ (applyMutators cvSample [Mutator.upsert (Key.mk "a") "v", Mutator.upsert (Key.mk "a") "v"]
          (Map.mk [(Key.mk "b", "w")])
        = .ok (((Map.mk [(Key.mk "b", "w")]).upsert (Key.mk "a") "v").upsert (Key.mk "a") "v")
      ∧ applyMutators cvSample [Mutator.upsert (Key.mk "a") "v"] (Map.mk [(Key.mk "b", "w")])
          = .ok ((Map.mk [(Key.mk "b", "w")]).upsert (Key.mk "a") "v")
      ∧ ∀ k', (((Map.mk [(Key.mk "b", "w")]).upsert (Key.mk "a") "v").upsert (Key.mk "a") "v").Value k'
          = ((Map.mk [(Key.mk "b", "w")]).upsert (Key.mk "a") "v").Value k') :=
  ⟨by decide,
    upsert_mutator_idempotent cvSample (Map.mk [(Key.mk "b", "w")]) (Key.mk "a") "v"
      (by decide)⟩

/-- C8: two well-formed maps holding identical key/value sets serialize
to identical strings; the rendering sorts the keys ascending by display
name and produces `"{ {name1 value1}...{nameN valueN} }"` with a leading
and trailing space inside the outer braces. -/
theorem toString_deterministic (m1 m2 : Map) (h1 : m1.wf) (hp : m1.m.Perm m2.m) :
    Map.toString m1 = Map.toString m2
    ∧ List.Sorted keyLE (List.insertionSort keyLE m1.keys)
    ∧ Map.toString m1
      = "\x7b " ++ String.join ((List.insertionSort keyLE m1.keys).map (renderEntry m1)) ++ " \x7d" := by
  have hkeys : m1.keys.Perm m2.keys := hp.map Prod.fst
  have hs : List.insertionSort keyLE m1.keys = List.insertionSort keyLE m2.keys :=
    List.eq_of_perm_of_sorted
      (((List.perm_insertionSort keyLE m1.keys).trans hkeys).trans
        (List.perm_insertionSort keyLE m2.keys).symm)
      (List.sorted_insertionSort keyLE m1.keys)
      (List.sorted_insertionSort keyLE m2.keys)
  have hre : renderEntry m1 = renderEntry m2 := by
    funext k
    unfold renderEntry Map.Value
    rw [lookup_perm_eq m1.m m2.m hp h1 k]
  refine ⟨?_, List.sorted_insertionSort keyLE m1.keys, rfl⟩
  unfold Map.toString
  rw [hs, hre]

/-- Witness for C8: the same two entries added in the two possible
orders serialize identically. -/
theorem toString_deterministic_witness :
    (Map.mk [(Key.mk "a", "1"), (Key.mk "b", "2")]).wf
    ∧ (Map.mk [(Key.mk "a", "1"), (Key.mk "b", "2")]).m.Perm
        (Map.mk [(Key.mk "b", "2"), (Key.mk "a", "1")]).m
    ∧ (Map.toString (Map.mk [(Key.mk "a", "1"), (Key.mk "b", "2")])
        = Map.toString (Map.mk [(Key.mk "b", "2"), (Key.mk "a", "1")])
      ∧ List.Sorted keyLE
          (List.insertionSort keyLE (Map.mk [(Key.mk "a", "1"), (Key.mk "b", "2")]).keys)
      ∧ Map.toString (Map.mk [(Key.mk "a", "1"), (Key.mk "b", "2")])
        = "\x7b " ++ String.join
            ((List.insertionSort keyLE (Map.mk [(Key.mk "a", "1"), (Key.mk "b", "2")]).keys).map
              (renderEntry (Map.mk [(Key.mk "a", "1"), (Key.mk "b", "2")]))) ++ " \x7d") :=
  ⟨by decide,
    List.Perm.swap (Key.mk "b", "2") (Key.mk "a", "1") [],
    toString_deterministic (Map.mk [(Key.mk "a", "1"), (Key.mk "b", "2")])
      (Map.mk [(Key.mk "b", "2"), (Key.mk "a", "1")]) (by decide)
      (List.Perm.swap (Key.mk "b", "2") (Key.mk "a", "1") [])⟩

/-- C9: a `Delete` mutator never returns an error, and afterwards the
lookup of the key on the resulting map finds nothing, whether or not the
key was present before. -/
theorem delete_mutator_never_fails (cv : String → Bool) (mp : Map) (k : Key) :
    Mutator.Mutate cv (.delete k) mp = .ok (mp.delete k)
    ∧ (mp.delete k).Value k = none :=
  ⟨rfl, delete_value_self mp k⟩

/-- C10: serializing the empty map yields exactly `"{  }"` — the leading
and trailing spaces are emitted even with nothing between them. -/
theorem toString_empty_map : Map.toString (Map.mk []) = "\x7b  \x7d" := by decide

/-- Counterexample for C6 as frozen: the claim quantifies over any
value, but on a value failing the validity predicate (here the empty
string under `cvSample`) the `Upsert` mutator returns the `InvalidValue`
error and no map, so no lookup on a result can return the value. -/
theorem upsert_any_value_counterexample :
    cvSample "" = false
    ∧ Mutator.Mutate cvSample (Mutator.upsert (Key.mk "a") "") (Map.mk [])
      = .error .invalidValue := by
  exact ⟨rfl, rfl⟩
